import Mathlib

/-!
Verification of the string-kernel subsequence-similarity routine
`StringKernel.calc_k` from `GPy/kern/src/string.py` (GPy 0.4.6).

The Python routine is embedded shallowly:

* sequences are `List Char` (the code only compares symbols with `==`);
* the float values are modelled over `ℤ`: every value the routine produces
  is a finite sum of the constants `1.0` and `0.0`/`0`, so all arithmetic
  is exact integer arithmetic;
* `xrange` carries Python-2 `range` semantics (GPy 0.4.6 is a Python-2
  package);
* the statement `dp = [[1.0] * (m + 1)] * (n + 1)` makes all `n + 1` rows
  of `dp` references to ONE shared list object, so reads of `dp[i - 1][·]`
  and writes to `dp[i][·]` all act on a single row `R`, which is how the
  grid is modelled here (one list, updated in place).
-/

namespace GPyString

/-- Symbols of the sequences handled by the string kernel; the Python code
only needs equality comparison on them, and characters model the string
case of the spec. -/
abbrev Symbol := Char

/-- Numeric values of the kernel computation (`1.0`, `0.0` and their sums),
modelled exactly over `ℤ`. -/
abbrev Val := ℤ

/-- First inner loop of `calc_k` (`for k in xrange(1, m + 1)`): `prev` is the
list read as `dp[i - 1]` (the shared row), `fuel` counts remaining
iterations, `k` is the loop index, `last` the match pointer.  Each step does
`p[k] = p[last]` and, if `s2[k - 1] == s1[i - 1]`,
`p[k] = p[last] + dp[i - 1][k - 1]` and `last = k`. -/
def matchLoop (c : Symbol) (s2 : List Symbol) (prev : List Val) :
    ℕ → ℕ → ℕ → List Val → List Val
  | 0, _, _, p => p
  | fuel + 1, k, last, p =>
    let p1 := p.set k (p.getD last 0)
    if s2.getD (k - 1) default = c then
      matchLoop c s2 prev fuel (k + 1) k
        (p1.set k (p1.getD last 0 + prev.getD (k - 1) 0))
    else
      matchLoop c s2 prev fuel (k + 1) last p1

/-- Second inner loop of `calc_k` (`dp[i][k] = dp[i - 1][k] + p[k]`): since
every row of `dp` is the same list object, both `dp[i]` and `dp[i - 1]`
denote the one shared row `R`, updated in place as `R[k] = R[k] + p[k]`. -/
def addLoop : ℕ → ℕ → List Val → List Val → List Val
  | 0, _, _, R => R
  | fuel + 1, k, p, R =>
    addLoop fuel (k + 1) p (R.set k (R.getD k 0 + p.getD k 0))

/-- Outer loop of `calc_k` (`for i in xrange(1, n + 1)`), threading the shared
row `R` and the accumulator list `p`; each iteration sets `last = 0` and
`p[0] = 0` and then runs the two inner loops. -/
def outerLoop (s1 s2 : List Symbol) (m : ℕ) :
    ℕ → ℕ → List Val × List Val → List Val × List Val
  | 0, _, st => st
  | fuel + 1, i, (R, p) =>
    let p0 := p.set 0 0
    let p1 := matchLoop (s1.getD (i - 1) default) s2 R m 1 0 p0
    let R1 := addLoop m 1 p1 R
    outerLoop s1 s2 m fuel (i + 1) (R1, p1)

/-- Shallow embedding of `StringKernel.calc_k` from `GPy/kern/src/string.py`:
`n = len(s1)`, `m = len(s2)`, `dp = [[1.0] * (m + 1)] * (n + 1)` (all rows
one shared list `R` of `m + 1` ones), `p = [0.0] * (m + 1)`, the nested
loops above, and finally `return dp[n][m]`, i.e. entry `m` of the shared
row. -/
def calc_k (s1 s2 : List Symbol) : Val :=
  let n := s1.length
  let m := s2.length
  let R := List.replicate (m + 1) (1 : Val)
  let p := List.replicate (m + 1) (0 : Val)
  ((outerLoop s1 s2 m n 1 (R, p)).1).getD m 0

/-- The value the accumulator cell `p[k]` holds at the end of an inner pass
whose matched symbol is `c` and whose previous row is read through `prevf`:
`pM k = ∑ over j < k with s2[j] = c of prevf j`. -/
def pM (c : Symbol) (s2 : List Symbol) (prevf : ℕ → Val) : ℕ → Val
  | 0 => 0
  | j + 1 => pM c s2 prevf j + (if s2.getD j default = c then prevf j else 0)

/-- The dynamic-programming table as a pure recurrence: `dpM i k` is the value
`dp[i][k]` would hold, row `i` being computed from row `i - 1` via the
accumulator `pM`. -/
def dpM (s1 s2 : List Symbol) : ℕ → ℕ → Val
  | 0, _ => 1
  | i + 1, k =>
    if k = 0 then 1
    else dpM s1 s2 i k + pM (s1.getD i default) s2 (fun j => dpM s1 s2 i j) k

theorem getD_set_self {l : List Val} {k : ℕ} {v : Val} (h : k < l.length) :
    (l.set k v).getD k 0 = v := by
  rw [List.getD_eq_getElem?_getD, List.getElem?_set]
  simp [h]

theorem getD_set_ne {l : List Val} {k j : ℕ} {v : Val} (h : k ≠ j) :
    (l.set k v).getD j 0 = l.getD j 0 := by
  rw [List.getD_eq_getElem?_getD, List.getElem?_set, if_neg h,
    List.getD_eq_getElem?_getD]

theorem getD_replicate_lt {n k : ℕ} {v : Val} (h : k < n) :
    (List.replicate n v).getD k 0 = v := by
  rw [List.getD_eq_getElem?_getD, List.getElem?_replicate, if_pos h]
  rfl

theorem pM_congr {c : Symbol} {s2 : List Symbol} {f g : ℕ → Val} :
    ∀ {k : ℕ}, (∀ j, j < k → f j = g j) → pM c s2 f k = pM c s2 g k := by
  intro k
  induction k with
  | zero => intro _; rfl
  | succ k ih =>
    intro h
    simp only [pM]
    rw [ih fun j hj => h j (Nat.lt_succ_of_lt hj), h k (Nat.lt_succ_self k)]

theorem dpM_zero_col (s1 s2 : List Symbol) : ∀ i, dpM s1 s2 i 0 = 1 := by
  intro i
  cases i with
  | zero => rfl
  | succ i => simp [dpM]

/-- Invariant of the first inner loop: starting at loop counter `t + 1` with
`t + fuel = m`, match pointer `last ≤ t`, cells `j ≤ t` of `p` already equal
to `pM j`, and `pM last = pM t` (no match strictly between `last` and `t`),
the loop fills every cell `j ≤ m` of `p` with `pM j`. -/
theorem matchLoop_spec (c : Symbol) (s2 : List Symbol) (prev : List Val) (m : ℕ) :
    ∀ fuel t last p, p.length = m + 1 → t + fuel = m → last ≤ t →
      (∀ j, j ≤ t → p.getD j 0 = pM c s2 (fun j => prev.getD j 0) j) →
      pM c s2 (fun j => prev.getD j 0) last = pM c s2 (fun j => prev.getD j 0) t →
      (matchLoop c s2 prev fuel (t + 1) last p).length = m + 1 ∧
        ∀ j, j ≤ m → (matchLoop c s2 prev fuel (t + 1) last p).getD j 0
          = pM c s2 (fun j => prev.getD j 0) j := by
  intro fuel
  induction fuel with
  | zero =>
    intro t last p hlen ht _ hcells _
    subst ht
    simpa [matchLoop] using ⟨hlen, by simpa using hcells⟩
  | succ fuel ih =>
    intro t last p hlen ht hlast hcells hrun
    have htm : t + 1 ≤ m := by omega
    have hlt : t + 1 < p.length := by omega
    have hlastne : t + 1 ≠ last := by omega
    have hpMsucc : ∀ f : ℕ → Val,
        pM c s2 f (t + 1) = pM c s2 f t + (if s2.getD t default = c then f t else 0) :=
      fun f => rfl
    simp only [matchLoop, Nat.add_sub_cancel]
    by_cases hm : s2.getD t default = c
    · rw [if_pos hm]
      have hget1 : (p.set (t + 1) (p.getD last 0)).getD last 0 = p.getD last 0 :=
        getD_set_ne hlastne
      have hval : p.getD last 0 = pM c s2 (fun j => prev.getD j 0) t := by
        rw [hcells last hlast]; exact hrun
      apply ih (t + 1) (t + 1) _ (by simp [hlen]) (by omega) le_rfl
      · intro j hj
        rcases Nat.lt_or_ge j (t + 1) with hjt | hjt
        · rw [getD_set_ne (by omega), getD_set_ne (by omega)]
          exact hcells j (by omega)
        · have hj1 : j = t + 1 := by omega
          subst hj1
          rw [getD_set_self (by simp [hlen]; omega), hget1, hval,
            hpMsucc fun j => prev.getD j 0, if_pos hm]
      · rfl
    · rw [if_neg hm]
      have hrun' : pM c s2 (fun j => prev.getD j 0) t
          = pM c s2 (fun j => prev.getD j 0) (t + 1) := by
        rw [hpMsucc fun j => prev.getD j 0, if_neg hm, add_zero]
      apply ih (t + 1) last _ (by simp [hlen]) (by omega) (by omega)
      · intro j hj
        rcases Nat.lt_or_ge j (t + 1) with hjt | hjt
        · rw [getD_set_ne (by omega)]
          exact hcells j (by omega)
        · have hj1 : j = t + 1 := by omega
          subst hj1
          rw [getD_set_self hlt, hcells last hlast, hrun, hrun']
      · exact hrun.trans hrun'

/-- Invariant of the second inner loop: starting at loop counter `t + 1` with
`t + fuel = m`, cell `j` of the row `R` ends up as `R[j] + p[j]` when
`t + 1 ≤ j ≤ m` and is untouched otherwise. -/
theorem addLoop_spec (m : ℕ) (p : List Val) :
    ∀ fuel t R, R.length = m + 1 → t + fuel = m →
      (addLoop fuel (t + 1) p R).length = m + 1 ∧
        ∀ j, j ≤ m → (addLoop fuel (t + 1) p R).getD j 0
          = if t + 1 ≤ j then R.getD j 0 + p.getD j 0 else R.getD j 0 := by
  intro fuel
  induction fuel with
  | zero =>
    intro t R hlen ht
    subst ht
    refine ⟨by simpa [addLoop] using hlen, ?_⟩
    intro j hj
    rw [if_neg (by omega)]
    simp [addLoop]
  | succ fuel ih =>
    intro t R hlen ht
    simp only [addLoop]
    have hlt : t + 1 < R.length := by omega
    obtain ⟨ihlen, ihcells⟩ :=
      ih (t + 1) (R.set (t + 1) (R.getD (t + 1) 0 + p.getD (t + 1) 0))
        (by simp [hlen]) (by omega)
    refine ⟨ihlen, ?_⟩
    intro j hj
    rw [ihcells j hj]
    rcases Nat.lt_or_ge j (t + 1) with hjt | hjt
    · rw [if_neg (by omega), if_neg (by omega), getD_set_ne (by omega)]
    · rcases Nat.lt_or_ge j (t + 2) with hjt2 | hjt2
      · have hj1 : j = t + 1 := by omega
        subst hj1
        rw [if_neg (by omega), if_pos le_rfl, getD_set_self hlt]
      · rw [if_pos (by omega), if_pos (by omega), getD_set_ne (by omega)]

/-- Invariant of the outer loop: if at entry to iteration `i + 1` the shared
row `R` holds row `i` of the recurrence, then after `fuel` further
iterations it holds row `i + fuel`. -/
theorem outerLoop_spec (s1 s2 : List Symbol) (m : ℕ) :
    ∀ fuel i R p, R.length = m + 1 → p.length = m + 1 →
      (∀ k, k ≤ m → R.getD k 0 = dpM s1 s2 i k) →
      ((outerLoop s1 s2 m fuel (i + 1) (R, p)).1.length = m + 1 ∧
        ∀ k, k ≤ m → (outerLoop s1 s2 m fuel (i + 1) (R, p)).1.getD k 0
          = dpM s1 s2 (i + fuel) k) := by
  intro fuel
  induction fuel with
  | zero =>
    intro i R p hR hp hrow
    simpa [outerLoop] using ⟨hR, by simpa using hrow⟩
  | succ fuel ih =>
    intro i R p hR hp hrow
    simp only [outerLoop, Nat.add_sub_cancel]
    obtain ⟨hp1len, hp1cells⟩ :=
      matchLoop_spec (s1.getD i default) s2 R m m 0 0 (p.set 0 0)
        (by simp [hp]) (by omega) le_rfl
        (by
          intro j hj
          have hj0 : j = 0 := by omega
          subst hj0
          rw [getD_set_self (by omega)]
          rfl)
        rfl
    obtain ⟨hR1len, hR1cells⟩ :=
      addLoop_spec m (matchLoop (s1.getD i default) s2 R m 1 0 (p.set 0 0)) m 0 R hR
        (by omega)
    have hrow' : ∀ k, k ≤ m →
        (addLoop m 1 (matchLoop (s1.getD i default) s2 R m 1 0 (p.set 0 0)) R).getD k 0
          = dpM s1 s2 (i + 1) k := by
      intro k hk
      rw [hR1cells k hk]
      rcases Nat.eq_or_lt_of_le (Nat.zero_le k) with hk0 | hk0
      · rw [if_neg (by omega), ← hk0, hrow 0 (by omega), dpM_zero_col, dpM_zero_col]
      · rw [if_pos (by omega), hrow k hk, hp1cells k hk]
        have hcongr : pM (s1.getD i default) s2 (fun j => R.getD j 0) k
            = pM (s1.getD i default) s2 (fun j => dpM s1 s2 i j) k :=
          pM_congr fun j hj => hrow j (by omega)
        rw [hcongr]
        show _ = dpM s1 s2 (i + 1) k
        rw [dpM, if_neg (by omega)]
    obtain ⟨hfin, hcells⟩ := ih (i + 1) _ _ hR1len hp1len hrow'
    refine ⟨hfin, ?_⟩
    intro k hk
    rw [hcells k hk]
    congr 1
    omega

/-- The source routine computes exactly the recurrence table entry
`dp[n][m]`. -/
theorem calc_k_eq_dpM (s1 s2 : List Symbol) :
    calc_k s1 s2 = dpM s1 s2 s1.length s2.length := by
  unfold calc_k
  obtain ⟨hlen, hcells⟩ :=
    outerLoop_spec s1 s2 s2.length s1.length 0
      (List.replicate (s2.length + 1) (1 : Val))
      (List.replicate (s2.length + 1) (0 : Val))
      (by simp) (by simp)
      (by
        intro k hk
        rw [getD_replicate_lt (by omega), dpM])
  rw [hcells s2.length le_rfl]
  congr 1
  omega

/-- Reference recurrence of spec §4, inner accumulator pass, following the
spec's words: for `k` from 1 to m, `p[k] = p[last]`; if `s2[k-1] == s1[i-1]`
then `p[k] = p[last] + dp[i-1][k-1]` and `last = k`, where `dp[i-1]` is here
an independent row `prevRow` as it stood before iteration `i`. -/
def specMatchPass (c : Symbol) (s2 : List Symbol) (prevRow : List Val) :
    ℕ → ℕ → ℕ → List Val → List Val
  | 0, _, _, p => p
  | fuel + 1, k, last, p =>
    let p1 := p.set k (p.getD last 0)
    if s2.getD (k - 1) default = c then
      specMatchPass c s2 prevRow fuel (k + 1) k
        (p1.set k (p1.getD last 0 + prevRow.getD (k - 1) 0))
    else
      specMatchPass c s2 prevRow fuel (k + 1) last p1

/-- Reference recurrence of spec §4, row update, following the spec's words:
after the inner pass, for `k` from 1 to m, `dp[i][k] = dp[i-1][k] + p[k]`,
written into a fresh independent row `new` (initialized all `1.0`). -/
def specRowFill : ℕ → ℕ → List Val → List Val → List Val → List Val
  | 0, _, _, _, new => new
  | fuel + 1, k, p, prevRow, new =>
    specRowFill fuel (k + 1) p prevRow (new.set k (prevRow.getD k 0 + p.getD k 0))

/-- Reference recurrence of spec §4: grid of independent rows, all cells
initialized to `1.0`; `(specRows s1 s2 m i).1` is row `i` of the grid and
`(specRows s1 s2 m i).2` the accumulator row `p` after outer iteration `i`
(each iteration resets `p[0] = 0` and `last = 0`). -/
def specRows (s1 s2 : List Symbol) (m : ℕ) : ℕ → List Val × List Val
  | 0 => (List.replicate (m + 1) 1, List.replicate (m + 1) 0)
  | i + 1 =>
    let st := specRows s1 s2 m i
    let p1 := specMatchPass (s1.getD i default) s2 st.1 m 1 0 (st.2.set 0 0)
    (specRowFill m 1 p1 st.1 (List.replicate (m + 1) 1), p1)

/-- `similarity(s1, s2)` of the spec: `dp[n][m]` of the reference recurrence
of spec §4 over a grid of independent rows. -/
def similarity_spec (s1 s2 : List Symbol) : Val :=
  ((specRows s1 s2 s2.length s1.length).1).getD s2.length 0

theorem specMatchPass_eq_matchLoop (c : Symbol) (s2 : List Symbol) (prev : List Val) :
    ∀ fuel k last p,
      specMatchPass c s2 prev fuel k last p = matchLoop c s2 prev fuel k last p := by
  intro fuel
  induction fuel with
  | zero => intro k last p; rfl
  | succ fuel ih =>
    intro k last p
    simp only [specMatchPass, matchLoop]
    by_cases hm : s2.getD (k - 1) default = c
    · rw [if_pos hm, if_pos hm, ih]
    · rw [if_neg hm, if_neg hm, ih]

/-- The fresh-row update pass of the reference recurrence: starting at loop
counter `t + 1` with `t + fuel = m`, cell `j ≤ m` of the produced row is
`prevRow[j] + p[j]` when `t + 1 ≤ j` and the initial cell otherwise. -/
theorem specRowFill_spec (m : ℕ) (p prevRow : List Val) :
    ∀ fuel t new, new.length = m + 1 → t + fuel = m →
      (specRowFill fuel (t + 1) p prevRow new).length = m + 1 ∧
        ∀ j, j ≤ m → (specRowFill fuel (t + 1) p prevRow new).getD j 0
          = if t + 1 ≤ j then prevRow.getD j 0 + p.getD j 0 else new.getD j 0 := by
  intro fuel
  induction fuel with
  | zero =>
    intro t new hlen ht
    subst ht
    refine ⟨by simpa [specRowFill] using hlen, ?_⟩
    intro j hj
    rw [if_neg (by omega)]
    simp [specRowFill]
  | succ fuel ih =>
    intro t new hlen ht
    simp only [specRowFill]
    have hlt : t + 1 < new.length := by omega
    obtain ⟨ihlen, ihcells⟩ :=
      ih (t + 1) (new.set (t + 1) (prevRow.getD (t + 1) 0 + p.getD (t + 1) 0))
        (by simp [hlen]) (by omega)
    refine ⟨ihlen, ?_⟩
    intro j hj
    rw [ihcells j hj]
    rcases Nat.lt_or_ge j (t + 1) with hjt | hjt
    · rw [if_neg (by omega), if_neg (by omega), getD_set_ne (by omega)]
    · rcases Nat.lt_or_ge j (t + 2) with hjt2 | hjt2
      · have hj1 : j = t + 1 := by omega
        subst hj1
        rw [if_neg (by omega), if_pos le_rfl, getD_set_self hlt]
      · rw [if_pos (by omega), if_pos (by omega)]

/-- Row `i` of the reference recurrence grid is row `i` of the pure
recurrence `dpM`. -/
theorem specRows_spec (s1 s2 : List Symbol) (m : ℕ) :
    ∀ i, (specRows s1 s2 m i).1.length = m + 1 ∧
      (specRows s1 s2 m i).2.length = m + 1 ∧
      ∀ k, k ≤ m → (specRows s1 s2 m i).1.getD k 0 = dpM s1 s2 i k := by
  intro i
  induction i with
  | zero =>
    refine ⟨by simp [specRows], by simp [specRows], ?_⟩
    intro k hk
    simp only [specRows]
    rw [getD_replicate_lt (by omega), dpM]
  | succ i ih =>
    obtain ⟨hrowlen, hplen, hcells⟩ := ih
    simp only [specRows]
    obtain ⟨hp1len, hp1cells⟩ :=
      matchLoop_spec (s1.getD i default) s2 (specRows s1 s2 m i).1 m m 0 0
        ((specRows s1 s2 m i).2.set 0 0)
        (by simp [hplen]) (by omega) le_rfl
        (by
          intro j hj
          have hj0 : j = 0 := by omega
          subst hj0
          rw [getD_set_self (by omega)]
          rfl)
        rfl
    rw [specMatchPass_eq_matchLoop]
    obtain ⟨hfillen, hfillcells⟩ :=
      specRowFill_spec m
        (matchLoop (s1.getD i default) s2 (specRows s1 s2 m i).1 m 1 0
          ((specRows s1 s2 m i).2.set 0 0))
        (specRows s1 s2 m i).1 m 0 (List.replicate (m + 1) 1) (by simp) (by omega)
    refine ⟨hfillen, hp1len, ?_⟩
    intro k hk
    rw [hfillcells k hk]
    rcases Nat.eq_or_lt_of_le (Nat.zero_le k) with hk0 | hk0
    · rw [if_neg (by omega), ← hk0, getD_replicate_lt (by omega), dpM_zero_col]
    · rw [if_pos (by omega), hcells k hk, hp1cells k hk]
      have hcongr : pM (s1.getD i default) s2 (fun j => (specRows s1 s2 m i).1.getD j 0) k
          = pM (s1.getD i default) s2 (fun j => dpM s1 s2 i j) k :=
        pM_congr fun j hj => hcells j (by omega)
      rw [hcongr]
      show _ = dpM s1 s2 (i + 1) k
      rw [dpM, if_neg (by omega)]

/-- The reference `similarity` of the spec also computes `dpM n m`. -/
theorem similarity_spec_eq_dpM (s1 s2 : List Symbol) :
    similarity_spec s1 s2 = dpM s1 s2 s1.length s2.length := by
  unfold similarity_spec
  obtain ⟨_, _, hcells⟩ := specRows_spec s1 s2 s2.length s1.length
  exact hcells s2.length le_rfl

/-- The recurrence in its symmetric two-list form: `RR u v` is the table
value for the prefixes whose REVERSALS are `u` and `v`, so consuming a head
of `u` or `v` removes the last symbol of the corresponding prefix. -/
def RR : List Symbol → List Symbol → Val
  | [], _ => 1
  | _ :: _, [] => 1
  | a :: s, b :: t =>
    RR s (b :: t) + RR (a :: s) t - RR s t + (if a = b then RR s t else 0)

theorem RR_nil_right : ∀ s : List Symbol, RR s [] = 1 := by
  intro s
  cases s with
  | nil => simp [RR]
  | cons a s => simp [RR]

theorem RR_comm : ∀ s t : List Symbol, RR s t = RR t s := by
  intro s
  induction s with
  | nil =>
    intro t
    rw [RR_nil_right]
    cases t with
    | nil => simp [RR]
    | cons b t => simp [RR]
  | cons a s ihs =>
    intro t
    induction t with
    | nil => rw [RR_nil_right]; simp [RR]
    | cons b t iht =>
      simp only [RR]
      rw [ihs (b :: t), iht, ihs t]
      have hiff : (if a = b then RR t s else 0) = (if b = a then RR t s else 0) := by
        by_cases hab : a = b
        · rw [if_pos hab, if_pos hab.symm]
        · rw [if_neg hab, if_neg fun hba => hab hba.symm]
      rw [hiff]
      ring

theorem dpM_succ (s1 s2 : List Symbol) (i k : ℕ) :
    dpM s1 s2 (i + 1) k
      = dpM s1 s2 i k + pM (s1.getD i default) s2 (fun j => dpM s1 s2 i j) k := by
  cases k with
  | zero => rw [dpM, if_pos rfl, dpM_zero_col]; rfl
  | succ k => rw [dpM, if_neg (by omega)]

/-- The table value `dpM i k` of the recurrence is `RR` of the reversed
prefixes of lengths `i` and `k`. -/
theorem dpM_eq_RR (s1 s2 : List Symbol) :
    ∀ i k, i ≤ s1.length → k ≤ s2.length →
      dpM s1 s2 i k = RR ((s1.take i).reverse) ((s2.take k).reverse) := by
  intro i
  induction i with
  | zero =>
    intro k _ _
    rw [dpM]
    simp [RR]
  | succ i ihi =>
    have htake1 : i < s1.length → (s1.take (i + 1)).reverse
        = s1.getD i default :: (s1.take i).reverse := by
      intro hi
      rw [List.take_succ, List.getElem?_eq_getElem hi, List.getD_eq_getElem s1 default hi]
      simp
    intro k
    induction k with
    | zero =>
      intro hi _
      rw [dpM, if_pos rfl, htake1 (by omega)]
      simp [RR_nil_right]
    | succ k ihk =>
      intro hi hk
      have hk' : k < s2.length := by omega
      have htake2 : (s2.take (k + 1)).reverse
          = s2.getD k default :: (s2.take k).reverse := by
        rw [List.take_succ, List.getElem?_eq_getElem hk', List.getD_eq_getElem s2 default hk']
        simp
      have hexp : dpM s1 s2 (i + 1) (k + 1)
          = dpM s1 s2 i (k + 1) + (dpM s1 s2 (i + 1) k - dpM s1 s2 i k)
            + (if s2.getD k default = s1.getD i default then dpM s1 s2 i k else 0) := by
        rw [dpM_succ s1 s2 i (k + 1), dpM_succ s1 s2 i k]
        show dpM s1 s2 i (k + 1)
            + (pM (s1.getD i default) s2 (fun j => dpM s1 s2 i j) k
              + (if s2.getD k default = s1.getD i default then dpM s1 s2 i k else 0)) = _
        ring
      rw [hexp, htake1 (by omega), htake2,
        ihi (k + 1) (by omega) hk, ihi k (by omega) (by omega), ihk (by omega) (by omega),
        htake1 (by omega), htake2]
      simp only [RR]
      have hiff : (if s1.getD i default = s2.getD k default
            then RR ((s1.take i).reverse) ((s2.take k).reverse) else 0)
          = (if s2.getD k default = s1.getD i default
            then RR ((s1.take i).reverse) ((s2.take k).reverse) else 0) := by
        by_cases hab : s1.getD i default = s2.getD k default
        · rw [if_pos hab, if_pos hab.symm]
        · rw [if_neg hab, if_neg fun hba => hab hba.symm]
      rw [hiff]
      ring

/-- The source routine in closed form: `RR` on the two reversed sequences. -/
theorem calc_k_eq_RR (s1 s2 : List Symbol) :
    calc_k s1 s2 = RR s1.reverse s2.reverse := by
  rw [calc_k_eq_dpM, dpM_eq_RR s1 s2 s1.length s2.length le_rfl le_rfl,
    List.take_length, List.take_length]

/-- Number of embeddings of `u` into `s` as a (possibly non-contiguous)
subsequence. -/
def occ : List Symbol → List Symbol → ℕ
  | [], _ => 1
  | _ :: _, [] => 0
  | c :: u, a :: s => occ (c :: u) s + (if a = c then occ u s else 0)

/-- Head contribution to `occ u (a :: s)`: embeddings that use the new first
symbol `a`. -/
def dOcc (a : Symbol) (s : List Symbol) : List Symbol → ℕ
  | [] => 0
  | c :: u => if a = c then occ u s else 0

theorem occ_nil_left : ∀ t : List Symbol, occ [] t = 1 := by
  intro t
  cases t <;> rfl

theorem occ_cons (a : Symbol) (s : List Symbol) :
    ∀ u : List Symbol, occ u (a :: s) = occ u s + dOcc a s u := by
  intro u
  cases u with
  | nil => rw [occ_nil_left, occ_nil_left]; rfl
  | cons c u => rfl

theorem sublist_of_occ_ne_zero : ∀ s u : List Symbol, occ u s ≠ 0 → u.Sublist s := by
  intro s
  induction s with
  | nil =>
    intro u h
    cases u with
    | nil => exact List.Sublist.refl []
    | cons c u => exact absurd rfl h
  | cons a s ihs =>
    intro u h
    cases u with
    | nil => exact List.nil_sublist _
    | cons c u =>
      rw [occ] at h
      by_cases h1 : occ (c :: u) s = 0
      · rw [h1, zero_add] at h
        by_cases hac : a = c
        · rw [if_pos hac] at h
          subst hac
          exact List.cons_sublist_cons.mpr (ihs u h)
        · rw [if_neg hac] at h
          exact absurd rfl h
      · exact (ihs (c :: u) h1).cons a

/-- Index set for the feature expansion: all sublists of `s` and of `t`. -/
def subsFinset (s t : List Symbol) : Finset (List Symbol) :=
  s.sublists.toFinset ∪ t.sublists.toFinset

theorem mem_subsFinset {u s t : List Symbol} :
    u ∈ subsFinset s t ↔ u.Sublist s ∨ u.Sublist t := by
  simp [subsFinset, List.mem_sublists]

/-- Feature expansion of the kernel: the sum, over common subsequences `u`,
of the product of the numbers of embeddings of `u` in `s` and in `t`. -/
def E (s t : List Symbol) : Val :=
  ∑ u ∈ subsFinset s t, (occ u s : Val) * (occ u t : Val)

theorem E_eq_sum (s t : List Symbol) (U : Finset (List Symbol))
    (hU : subsFinset s t ⊆ U) :
    E s t = ∑ u ∈ U, (occ u s : Val) * (occ u t : Val) := by
  apply Finset.sum_subset hU
  intro u _ hu
  by_cases hs : occ u s = 0
  · rw [hs]; simp
  · by_cases ht : occ u t = 0
    · rw [ht]; simp
    · exact absurd (mem_subsFinset.mpr (Or.inl (sublist_of_occ_ne_zero s u hs))) hu

theorem E_comm (s t : List Symbol) : E s t = E t s := by
  unfold E
  rw [show subsFinset s t = subsFinset t s from Finset.union_comm _ _]
  exact Finset.sum_congr rfl fun u _ => mul_comm _ _

theorem occ_nil_right : ∀ u : List Symbol, occ u [] = if u = [] then 1 else 0 := by
  intro u
  cases u with
  | nil => rfl
  | cons c u => simp [occ]

theorem E_nil_left (t : List Symbol) : E [] t = 1 := by
  unfold E
  rw [Finset.sum_eq_single ([] : List Symbol)]
  · show (occ [] [] : Val) * (occ [] t : Val) = 1
    have h1 : occ [] [] = 1 := rfl
    have h2 : occ [] t = 1 := by cases t <;> rfl
    rw [h1, h2]; norm_num
  · intro u _ hu
    rw [occ_nil_right, if_neg hu]
    simp
  · intro h
    exact absurd (mem_subsFinset.mpr (Or.inl (List.Sublist.refl []))) h

/-- The head-contribution cross term: summing `dOcc a s u * dOcc b t u` over
any index set containing all common sublists of `s` and `t` (shifted by the
head) yields `E s t` when `a = b` and `0` otherwise. -/
theorem sum_dOcc_mul_dOcc (a b : Symbol) (s t : List Symbol) :
    ∑ u ∈ subsFinset (a :: s) (b :: t), (dOcc a s u : Val) * (dOcc b t u : Val)
      = if a = b then E s t else 0 := by
  by_cases hab : a = b
  · subst hab
    rw [if_pos rfl]
    rw [← Finset.sum_filter_of_ne
      (p := fun u : List Symbol => u.head? = some a)
      (by
        intro u hu hf
        cases u with
        | nil => simp [dOcc] at hf
        | cons c u =>
          by_cases hac : a = c
          · rw [hac]; rfl
          · simp [dOcc, hac] at hf)]
    rw [E]
    apply Finset.sum_nbij' (fun u => u.tail) (fun u => a :: u)
    · intro u hu
      rw [Finset.mem_filter] at hu
      obtain ⟨hmem, hhead⟩ := hu
      have hu' : u = a :: u.tail := by cases u <;> simp_all
      rw [mem_subsFinset] at hmem
      rw [mem_subsFinset]
      rw [hu'] at hmem
      rcases hmem with h | h
      · exact Or.inl (List.cons_sublist_cons.mp h)
      · exact Or.inr (List.cons_sublist_cons.mp h)
    · intro u hu
      rw [Finset.mem_filter]
      rw [mem_subsFinset] at hu
      constructor
      · rw [mem_subsFinset]
        rcases hu with h | h
        · exact Or.inl (List.cons_sublist_cons.mpr h)
        · exact Or.inr (List.cons_sublist_cons.mpr h)
      · rfl
    · intro u hu
      rw [Finset.mem_filter] at hu
      cases u with
      | nil => simp at hu
      | cons c u => simp_all
    · intro u _
      rfl
    · intro u hu
      rw [Finset.mem_filter] at hu
      obtain ⟨_, hhead⟩ := hu
      have hu' : u = a :: u.tail := by cases u <;> simp_all
      rw [hu']
      show ((dOcc a s (a :: u.tail) : Val)) * (dOcc a t (a :: u.tail) : Val) = _
      simp [dOcc]
  · rw [if_neg hab]
    apply Finset.sum_eq_zero
    intro u _
    cases u with
    | nil => simp [dOcc]
    | cons c u =>
      by_cases hac : a = c
      · have hbc : ¬ b = c := fun h => hab (hac.trans h.symm)
        simp [dOcc, hbc]
      · simp [dOcc, hac]

/-- The defining identity of the feature expansion under prepending one
symbol to each sequence. -/
theorem E_cons_cons (a b : Symbol) (s t : List Symbol) :
    E (a :: s) (b :: t) + E s t
      = E s (b :: t) + E (a :: s) t + (if a = b then E s t else 0) := by
  have hsub : ∀ u s' : List Symbol, u.Sublist s' → ∀ c : Symbol, u.Sublist (c :: s') :=
    fun u s' h c => h.cons c
  have hU1 : subsFinset s t ⊆ subsFinset (a :: s) (b :: t) := by
    intro u hu
    rw [mem_subsFinset] at hu ⊢
    rcases hu with h | h
    · exact Or.inl (hsub u s h a)
    · exact Or.inr (hsub u t h b)
  have hU2 : subsFinset s (b :: t) ⊆ subsFinset (a :: s) (b :: t) := by
    intro u hu
    rw [mem_subsFinset] at hu ⊢
    rcases hu with h | h
    · exact Or.inl (hsub u s h a)
    · exact Or.inr h
  have hU3 : subsFinset (a :: s) t ⊆ subsFinset (a :: s) (b :: t) := by
    intro u hu
    rw [mem_subsFinset] at hu ⊢
    rcases hu with h | h
    · exact Or.inl h
    · exact Or.inr (hsub u t h b)
  rw [← sum_dOcc_mul_dOcc a b s t, E_eq_sum s t _ hU1, E_eq_sum s (b :: t) _ hU2,
    E_eq_sum (a :: s) t _ hU3]
  unfold E
  rw [← Finset.sum_add_distrib, ← Finset.sum_add_distrib, ← Finset.sum_add_distrib]
  apply Finset.sum_congr rfl
  intro u _
  rw [occ_cons a s u, occ_cons b t u]
  push_cast
  ring

/-- The symmetric recurrence equals the feature expansion. -/
theorem RR_eq_E : ∀ s t : List Symbol, RR s t = E s t := by
  intro s
  induction s with
  | nil =>
    intro t
    rw [E_nil_left]
    cases t with
    | nil => simp [RR]
    | cons b t => simp [RR]
  | cons a s ihs =>
    intro t
    induction t with
    | nil => rw [RR_nil_right, E_comm, E_nil_left]
    | cons b t iht =>
      have h5 := E_cons_cons a b s t
      simp only [RR]
      rw [ihs (b :: t), iht, ihs t]
      by_cases hab : a = b
      · rw [if_pos hab] at h5 ⊢
        linarith
      · rw [if_neg hab] at h5 ⊢
        linarith

/-- The source routine in feature-expansion form. -/
theorem calc_k_eq_E (s1 s2 : List Symbol) :
    calc_k s1 s2 = E s1.reverse s2.reverse := by
  rw [calc_k_eq_RR, RR_eq_E]

/-- Arithmetic-geometric mean bound on the feature expansion. -/
theorem two_mul_E_le (s t : List Symbol) : 2 * E s t ≤ E s s + E t t := by
  have hUs : subsFinset s s ⊆ subsFinset s t := by
    intro u hu
    rw [mem_subsFinset] at hu ⊢
    rcases hu with h | h
    · exact Or.inl h
    · exact Or.inl h
  have hUt : subsFinset t t ⊆ subsFinset s t := by
    intro u hu
    rw [mem_subsFinset] at hu ⊢
    rcases hu with h | h
    · exact Or.inr h
    · exact Or.inr h
  rw [E_eq_sum s s _ hUs, E_eq_sum t t _ hUt]
  unfold E
  rw [Finset.mul_sum, ← Finset.sum_add_distrib]
  apply Finset.sum_le_sum
  intro u _
  have h := two_mul_le_add_sq ((occ u s : Val)) ((occ u t : Val))
  calc 2 * ((occ u s : Val) * (occ u t : Val))
      = 2 * (occ u s : Val) * (occ u t : Val) := by ring
    _ ≤ (occ u s : Val) ^ 2 + (occ u t : Val) ^ 2 := h
    _ = (occ u s : Val) * (occ u s : Val) + (occ u t : Val) * (occ u t : Val) := by ring

/-- Python-level error kinds relevant to calling `calc_k` with malformed
arguments: `typeError` is Python's `TypeError` (raised e.g. by `len(None)`
or by a missing positional argument); `invalidInputError` represents the
`InvalidInputError` named by the spec, so the two can be distinguished. -/
inductive PyError where
  | typeError
  | invalidInputError
deriving DecidableEq

/-- `calc_k` as invoked with possibly-null (`None`) sequence arguments.  The
body begins with `n = len(s1)` and `m = len(s2)`, and `len` of `None`
raises `TypeError`; the source performs no input validation of its own, so
non-null arguments always reach the numeric computation. -/
def calc_k_checked (s1? s2? : Option (List Symbol)) : Except PyError Val :=
  match s1? with
  | none => Except.error PyError.typeError
  | some s1 =>
    match s2? with
    | none => Except.error PyError.typeError
    | some s2 => Except.ok (calc_k s1 s2)

/-- Modelled from the spec: the kernel-object state of the generic `Kern`
base class, whose code is not among the reviewed sources.  Spec §6 gives the
kernel abstraction an input dimensionality, an output dimensionality and a
name, which `StringKernel.__init__` sets via `super().__init__(1, 1, name)`
with default name `'sk'`. -/
structure KernState where
  input_dim : ℕ
  output_dim : ℕ
  name : String
deriving DecidableEq

/-- The `StringKernel` object as built by `__init__` with the default name. -/
def stringKernelInit : KernState :=
  { input_dim := 1, output_dim := 1, name := "sk" }

/-- The `calc_k` method as a state transformer on the kernel object: its body
reads only `s1`, `s2` and the locals `n`, `m`, `dp`, `p` and the loop
variables, and assigns only to locals (`p[k]`, `dp[i][k]`, `last`), never to
`self` or to the inputs, so the call returns the numeric result and the
object state passes through unchanged. -/
def calc_k_method (st : KernState) (s1 s2 : List Symbol) : Val × KernState :=
  (calc_k s1 s2, st)

/-- The shared row `R` (alias of every `dp[i]`) as it stands after `i` outer
iterations of `calc_k` on `s1`, `s2`; this is the list that any read of
`dp[i - 1][·]` during outer iteration `i + 1` observes. -/
def rowState (s1 s2 : List Symbol) (i : ℕ) : List Val :=
  (outerLoop s1 s2 s2.length i 1
    (List.replicate (s2.length + 1) (1 : Val),
      List.replicate (s2.length + 1) (0 : Val))).1

/-- The shared row observed after `i` outer iterations coincides, cell by
cell, with row `i` of the reference recurrence's grid of independent rows. -/
theorem rowState_eq_specRow (s1 s2 : List Symbol) (i k : ℕ)
    (_hi : i ≤ s1.length) (hk : k ≤ s2.length) :
    (rowState s1 s2 i).getD k 0 = (specRows s1 s2 s2.length i).1.getD k 0 := by
  unfold rowState
  obtain ⟨_, hcells⟩ :=
    outerLoop_spec s1 s2 s2.length i 0
      (List.replicate (s2.length + 1) (1 : Val))
      (List.replicate (s2.length + 1) (0 : Val))
      (by simp) (by simp)
      (by
        intro j hj
        rw [getD_replicate_lt (by omega), dpM])
  rw [hcells k hk]
  obtain ⟨_, _, hspec⟩ := specRows_spec s1 s2 s2.length i
  rw [hspec k hk]
  congr 1
  omega

/-- C1: for every pair of sequences, `calc_k(s1, s2)` returns `dp[n][m]` of
the reference recurrence of spec §4 computed over a grid of independent rows
all initialized to `1.0`. -/
theorem claim_C1_calc_k_matches_reference (s1 s2 : List Symbol) :
    calc_k s1 s2 = similarity_spec s1 s2 := by
  rw [calc_k_eq_dpM, similarity_spec_eq_dpM]

/-- C2 counterexample: `calc_k` applied to the empty sequence and `"a"` (and
symmetrically) does not return `0`. -/
theorem claim_C2_counterexample :
    calc_k [] ['a'] ≠ 0 ∧ calc_k ['a'] [] ≠ 0 := by decide

/-- C2 amended: for every sequence `s`, `calc_k` applied to the empty
sequence and `s` returns `1.0` (not `0`), and likewise with the arguments
swapped: the table is initialized to `1.0` everywhere, and with an empty
side no cell is ever updated before `dp[n][m]` is read. -/
theorem claim_C2_empty_gives_one (s : List Symbol) :
    calc_k [] s = 1 ∧ calc_k s [] = 1 := by
  constructor
  · rw [calc_k_eq_dpM]
    rfl
  · rw [calc_k_eq_dpM]
    exact dpM_zero_col s [] s.length

/-- C3: the similarity computed by `calc_k` is symmetric in its two
arguments. -/
theorem claim_C3_symmetric (s1 s2 : List Symbol) :
    calc_k s1 s2 = calc_k s2 s1 := by
  rw [calc_k_eq_RR, calc_k_eq_RR, RR_comm]

/-- C4 counterexample: called with a null first sequence, `calc_k` fails
with Python's `TypeError` (from `n = len(s1)`), not with the
`InvalidInputError` the claim names. -/
theorem claim_C4_counterexample :
    calc_k_checked none (some ['a']) = Except.error PyError.typeError
      ∧ PyError.typeError ≠ PyError.invalidInputError :=
  ⟨rfl, by decide⟩

/-- C4 amended: with a null or absent sequence argument `calc_k` fails
immediately with a `TypeError` (there is no validation producing an
`InvalidInputError` in the source); under well-formed (non-null) inputs it
raises no error and returns the numeric result. -/
theorem claim_C4_null_behaviour :
    (∀ s2? : Option (List Symbol),
        calc_k_checked none s2? = Except.error PyError.typeError)
      ∧ (∀ s1 : List Symbol,
        calc_k_checked (some s1) none = Except.error PyError.typeError)
      ∧ (∀ s1 s2 : List Symbol,
        calc_k_checked (some s1) (some s2) = Except.ok (calc_k s1 s2)) :=
  ⟨fun _ => rfl, fun _ => rfl, fun _ _ => rfl⟩

/-- C5 counterexample: self-similarity is not maximal; with `s = "a"` and
`t = "aa"`, `calc_k(s, s) = 2 < 3 = calc_k(s, t)`. -/
theorem claim_C5_counterexample :
    calc_k ['a'] ['a'] < calc_k ['a'] ['a', 'a'] := by decide

/-- C5 amended: a cross-sequence score can exceed the self-similarity of one
of the two sequences, but never both: for all `s`, `t`,
`calc_k(s, t) ≤ max(calc_k(s, s), calc_k(t, t))`. -/
theorem claim_C5_cross_le_max_self (s t : List Symbol) :
    calc_k s t ≤ max (calc_k s s) (calc_k t t) := by
  have h := two_mul_E_le s.reverse t.reverse
  rw [← calc_k_eq_E, ← calc_k_eq_E, ← calc_k_eq_E] at h
  have h1 : calc_k s s ≤ max (calc_k s s) (calc_k t t) := le_max_left _ _
  have h2 : calc_k t t ≤ max (calc_k s s) (calc_k t t) := le_max_right _ _
  linarith

/-- C6: on the concrete inputs of the spec's sanity check,
`calc_k("aaa", "aaa")` is strictly greater than `calc_k("aaa", "aab")`. -/
theorem claim_C6_repetition_check :
    calc_k ['a', 'a', 'a'] ['a', 'a', 'b'] < calc_k ['a', 'a', 'a'] ['a', 'a', 'a'] := by
  decide

/-- C7: the value returned by `calc_k` is non-negative for every pair of
sequences. -/
theorem claim_C7_nonneg (s1 s2 : List Symbol) : 0 ≤ calc_k s1 s2 := by
  rw [calc_k_eq_E]
  unfold E
  apply Finset.sum_nonneg
  intro u _
  exact mul_nonneg (Int.natCast_nonneg _) (Int.natCast_nonneg _)

/-- C8: `calc_k` is deterministic; the result is a function of the two input
sequences alone, unaffected by the kernel-object state it is invoked on or
by any earlier call. -/
theorem claim_C8_deterministic :
    ∀ (st st' : KernState) (s1 s2 t1 t2 : List Symbol),
      (calc_k_method st s1 s2).1 = (calc_k_method st' s1 s2).1
        ∧ (calc_k_method (calc_k_method st t1 t2).2 s1 s2).1
          = (calc_k_method st s1 s2).1
        ∧ (calc_k_method st s1 s2).1 = calc_k s1 s2 :=
  fun _ _ _ _ _ _ => ⟨rfl, rfl, rfl⟩

/-- C9: a call to `calc_k` leaves the kernel-object state exactly as it
found it (the grid `dp` and accumulator `p` are locals of the call), so no
later call can observe any effect of an earlier one. -/
theorem claim_C9_no_side_effects :
    ∀ (st : KernState) (s1 s2 : List Symbol),
      (calc_k_method st s1 s2).2 = st :=
  fun _ _ _ => rfl

/-- C10 counterexample: on `s1 = s2 = "ab"`, the shared row that a read of
`dp[i - 1][k - 1]` observes at the start of each outer iteration is exactly
row `i - 1` of the reference recurrence of independent rows — never a value
the reference recurrence would not prescribe — and the final result agrees
with the reference. -/
theorem claim_C10_counterexample :
    rowState ['a', 'b'] ['a', 'b'] 1 = (specRows ['a', 'b'] ['a', 'b'] 2 1).1
      ∧ rowState ['a', 'b'] ['a', 'b'] 2 = (specRows ['a', 'b'] ['a', 'b'] 2 2).1
      ∧ calc_k ['a', 'b'] ['a', 'b'] = similarity_spec ['a', 'b'] ['a', 'b'] := by
  decide

/-- C10 amended: all rows of `dp` are indeed one shared list, so writing
`dp[i][k]` updates every row; but each outer iteration reads the shared row
only before writing it, so every read of `dp[i - 1][k - 1]` observes exactly
row `i - 1` of the reference recurrence with independent rows, and no
divergence from the reference recurrence is ever observable. -/
theorem claim_C10_reads_match_reference (s1 s2 : List Symbol) (i k : ℕ)
    (hi : i ≤ s1.length) (hk : k ≤ s2.length) :
    (rowState s1 s2 i).getD k 0 = (specRows s1 s2 s2.length i).1.getD k 0 :=
  rowState_eq_specRow s1 s2 i k hi hk

/-- C10 amended, witness: the amended statement instantiated on the concrete
input `s1 = s2 = "ab"`, `i = 1`, `k = 2`. -/
theorem claim_C10_reads_match_reference_witness :
    1 ≤ (['a', 'b'] : List Symbol).length
      ∧ 2 ≤ (['a', 'b'] : List Symbol).length
      ∧ (rowState ['a', 'b'] ['a', 'b'] 1).getD 2 0
        = (specRows ['a', 'b'] ['a', 'b'] (['a', 'b'] : List Symbol).length 1).1.getD 2 0 :=
  ⟨by decide, by decide,
    claim_C10_reads_match_reference ['a', 'b'] ['a', 'b'] 1 2 (by decide) (by decide)⟩

end GPyString
